import Mathlib

/-!
Verification of the numeric core of com_lz_orbital_simulation.py: the COM-LZ
attractor-radius model, the resonance potential, the drift-acceleration ODE
right-hand side, and the debris-drift simulation driver. Python floats are
modelled as real numbers; Python integer remainder with a positive modulus
agrees with Int.emod.
-/

namespace SATDebris

/-- Module constant LZ from the source. -/
noncomputable def LZ : ℝ := 1.23498288

/-- Module constant R_EARTH from the source (km). -/
noncomputable def R_EARTH : ℝ := 6371

/-- Octave reduction factor used by com_lz_attractor_radius:
((n - 1) % 9 + 1) / 9 with Python integer remainder (equal to Int.emod
for the positive modulus 9), divided in float arithmetic. -/
noncomputable def octave_factor (n : ℤ) : ℝ :=
  (((n - 1) % 9 + 1 : ℤ) : ℝ) / 9

/-- Embedding of com_lz_attractor_radius: base radius R_EARTH * LZ^n with
harmonic adjustment 1 + 0.1 * sin(octave_factor * 2 * pi). -/
noncomputable def com_lz_attractor_radius (n : ℤ) : ℝ :=
  let base_radius := R_EARTH * LZ ^ n
  base_radius * (1 + 0.1 * Real.sin (octave_factor n * 2 * Real.pi))

/-- Embedding of resonance_potential for a scalar radius argument r: the sum
over the attractor radii of 1 / (1 + 0.01 * abs(r - r_a)^2). -/
noncomputable def resonance_potential (r : ℝ) (n_vals : List ℤ) : ℝ :=
  let attractor_radii := n_vals.map com_lz_attractor_radius
  (attractor_radii.map (fun r_a => 1 / (1 + 0.01 * |r - r_a| ^ 2))).sum

/-- Embedding of drift_acceleration. Under odeint the argument r is the NumPy
state vector [position, velocity], so r + dr and r - dr shift both components
and resonance_potential broadcasts over them: np.sum adds the bump values at
the shifted position and at the shifted velocity. Hence pot_plus is
resonance_potential (position + dr) + resonance_potential (velocity + dr),
and likewise for pot_minus. -/
noncomputable def drift_acceleration (r : ℝ × ℝ) (t : ℝ) (n_vals : List ℤ) :
    ℝ × ℝ :=
  let dr : ℝ := 1.0
  let pot_plus :=
    resonance_potential (r.1 + dr) n_vals + resonance_potential (r.2 + dr) n_vals
  let pot_minus :=
    resonance_potential (r.1 - dr) n_vals + resonance_potential (r.2 - dr) n_vals
  let gradient := (pot_plus - pot_minus) / (2 * dr)
  let damping := -0.1 * r.2
  (r.2, -gradient + damping)

/-- DriftDynamics as described by the specification (section 4.3): the
gradient is the central difference of the potential at the position alone,
with step 1.0, and the acceleration is -gradient + damping with
damping = -0.1 * velocity. Stated for comparison with drift_acceleration. -/
noncomputable def drift_acceleration_spec (r : ℝ × ℝ) (t : ℝ)
    (n_vals : List ℤ) : ℝ × ℝ :=
  let dr : ℝ := 1.0
  let gradient :=
    (resonance_potential (r.1 + dr) n_vals - resonance_potential (r.1 - dr) n_vals)
      / (2 * dr)
  let damping := -0.1 * r.2
  (r.2, -gradient + damping)

/-- Embedding of np.linspace(start, stop, num): num evenly spaced samples
from start to stop inclusive. -/
noncomputable def linspace (start stop : ℝ) (num : ℕ) : List ℝ :=
  (List.range num).map
    (fun i : ℕ => start + (stop - start) * (i : ℝ) / ((num - 1 : ℕ) : ℝ))

/-- One row of the simulation results DataFrame produced by
simulate_debris_drift: particle index, time, radius and velocity. -/
structure SimRow where
  particle : ℕ
  time : ℝ
  radius : ℝ
  velocity : ℝ

/-- Rows appended for one particle by the inner loop of simulate_debris_drift:
particle index i, the j-th time point, and the j-th solution sample of the
integrator run started from state (r0, 0). -/
noncomputable def particle_rows
    (integrate : ((ℝ × ℝ) → ℝ → List ℤ → (ℝ × ℝ)) → (ℝ × ℝ) → List ℝ →
        List ℤ → List (ℝ × ℝ))
    (i : ℕ) (r0 : ℝ) (n_vals : List ℤ) (t : List ℝ) : List SimRow :=
  let sol := integrate drift_acceleration (r0, 0) t n_vals
  (List.range t.length).map (fun j =>
    SimRow.mk i (t.getD j 0) (sol.getD j (0, 0)).1 (sol.getD j (0, 0)).2)

/-- Embedding of simulate_debris_drift, parameterised by the ODE integrator
(scipy.integrate.odeint), which maps a right-hand side, an initial state, the
time grid and the extra arguments to one state sample per time point. -/
noncomputable def simulate_debris_drift
    (integrate : ((ℝ × ℝ) → ℝ → List ℤ → (ℝ × ℝ)) → (ℝ × ℝ) → List ℝ →
        List ℤ → List (ℝ × ℝ))
    (initial_radii : List ℝ) (n_vals : List ℤ) (t_span : ℝ)
    (num_points : ℕ) : List SimRow :=
  let t := linspace 0 t_span num_points
  ((List.range initial_radii.length).map (fun i =>
    particle_rows integrate i (initial_radii.getD i 0) n_vals t)).flatten

/-- Unfolding of particle_rows without the local binding. -/
theorem particle_rows_def
    (integrate : ((ℝ × ℝ) → ℝ → List ℤ → (ℝ × ℝ)) → (ℝ × ℝ) → List ℝ →
        List ℤ → List (ℝ × ℝ))
    (i : ℕ) (r0 : ℝ) (n_vals : List ℤ) (t : List ℝ) :
    particle_rows integrate i r0 n_vals t
      = (List.range t.length).map (fun j =>
          SimRow.mk i (t.getD j 0)
            ((integrate drift_acceleration (r0, 0) t n_vals).getD j (0, 0)).1
            ((integrate drift_acceleration (r0, 0) t n_vals).getD j (0, 0)).2) :=
  rfl

/-- Unfolding of simulate_debris_drift without the local binding. -/
theorem simulate_debris_drift_def
    (integrate : ((ℝ × ℝ) → ℝ → List ℤ → (ℝ × ℝ)) → (ℝ × ℝ) → List ℝ →
        List ℤ → List (ℝ × ℝ))
    (initial_radii : List ℝ) (n_vals : List ℤ) (t_span : ℝ) (num_points : ℕ) :
    simulate_debris_drift integrate initial_radii n_vals t_span num_points
      = ((List.range initial_radii.length).map (fun i =>
          particle_rows integrate i (initial_radii.getD i 0) n_vals
            (linspace 0 t_span num_points))).flatten :=
  rfl

/-- Unfolding of the potential on a one-element attractor list. -/
theorem resonance_potential_single (r : ℝ) (n : ℤ) :
    resonance_potential r [n]
      = 1 / (1 + 0.01 * |r - com_lz_attractor_radius n| ^ 2) := by
  simp [resonance_potential]

/-- Unfolding of the potential on a cons cell. -/
theorem resonance_potential_cons (r : ℝ) (n : ℤ) (l : List ℤ) :
    resonance_potential r (n :: l)
      = 1 / (1 + 0.01 * |r - com_lz_attractor_radius n| ^ 2)
        + resonance_potential r l := by
  simp [resonance_potential]

/-- The potential as a single map-sum over the harmonic indices. -/
theorem resonance_potential_eq_map (r : ℝ) (l : List ℤ) :
    resonance_potential r l
      = (l.map (fun m => 1 / (1 + 0.01 * |r - com_lz_attractor_radius m| ^ 2))).sum := by
  induction l with
  | nil => simp [resonance_potential]
  | cons m t ih =>
      rw [resonance_potential_cons, List.map_cons, List.sum_cons, ih]

/-- The potential is nonnegative on every attractor list. -/
theorem resonance_potential_nonneg (r : ℝ) (l : List ℤ) :
    0 ≤ resonance_potential r l := by
  induction l with
  | nil => simp [resonance_potential]
  | cons n l ih =>
      rw [resonance_potential_cons]
      have h : (0:ℝ) ≤ 1 / (1 + 0.01 * |r - com_lz_attractor_radius n| ^ 2) := by
        positivity
      linarith

/-- The potential is at most the length of the attractor list. -/
theorem resonance_potential_le_length (r : ℝ) (l : List ℤ) :
    resonance_potential r l ≤ l.length := by
  induction l with
  | nil => simp [resonance_potential]
  | cons n l ih =>
      rw [resonance_potential_cons]
      have hd0 : (0:ℝ) ≤ 0.01 * |r - com_lz_attractor_radius n| ^ 2 := by
        positivity
      have hd : (1:ℝ) ≤ 1 + 0.01 * |r - com_lz_attractor_radius n| ^ 2 := by
        linarith
      have h1 : 1 / (1 + 0.01 * |r - com_lz_attractor_radius n| ^ 2) ≤ (1:ℝ) := by
        rw [div_le_one (by positivity)]
        exact hd
      have hlen : ((n :: l).length : ℝ) = l.length + 1 := by
        simp
      rw [hlen]
      linarith

/-- C2: for every integer n (including n ≤ 0), com_lz_attractor_radius n is
base * (1 + 0.1 * sin(octave * 2 * pi)) with base = R_EARTH * LZ^n and
octave = ((n - 1) % 9 + 1) / 9, and the octave factor lies in (0, 1]. -/
theorem radius_formula_and_octave_range (n : ℤ) :
    com_lz_attractor_radius n
      = R_EARTH * LZ ^ n * (1 + 0.1 * Real.sin (octave_factor n * 2 * Real.pi))
    ∧ 0 < octave_factor n ∧ octave_factor n ≤ 1 := by
  have h0 : 0 ≤ (n - 1) % 9 := Int.emod_nonneg _ (by norm_num)
  have h9 : (n - 1) % 9 < 9 := Int.emod_lt_of_pos _ (by norm_num)
  refine ⟨rfl, ?_, ?_⟩
  · unfold octave_factor
    have h1 : (0:ℝ) < (((n - 1) % 9 + 1 : ℤ) : ℝ) := by
      exact_mod_cast (by omega : (0:ℤ) < (n - 1) % 9 + 1)
    positivity
  · unfold octave_factor
    rw [div_le_one (by norm_num)]
    exact_mod_cast (by omega : ((n - 1) % 9 + 1 : ℤ) ≤ 9)

/-- C4: over the single-attractor list [n] the potential is exactly 1 at the
attractor radius, is strictly larger at any point strictly closer to the
attractor (monotone decreasing in the distance), and never exceeds 1, so its
maximum is attained exactly at r = com_lz_attractor_radius n. -/
theorem potential_single_attractor_max (n : ℤ) (r₁ r₂ : ℝ)
    (h : |r₁ - com_lz_attractor_radius n| < |r₂ - com_lz_attractor_radius n|) :
    resonance_potential (com_lz_attractor_radius n) [n] = 1
    ∧ resonance_potential r₂ [n] < resonance_potential r₁ [n]
    ∧ resonance_potential r₁ [n] ≤ 1 := by
  have h1 : (0:ℝ) ≤ |r₁ - com_lz_attractor_radius n| := abs_nonneg _
  refine ⟨?_, ?_, ?_⟩
  · rw [resonance_potential_single, sub_self, abs_zero]
    norm_num
  · rw [resonance_potential_single, resonance_potential_single]
    have hlt : 1 + 0.01 * |r₁ - com_lz_attractor_radius n| ^ 2
        < 1 + 0.01 * |r₂ - com_lz_attractor_radius n| ^ 2 := by nlinarith
    exact one_div_lt_one_div_of_lt (by positivity) hlt
  · rw [resonance_potential_single, div_le_one (by positivity)]
    nlinarith [sq_nonneg |r₁ - com_lz_attractor_radius n|]

/-- Witness for C4 at n = 1, r₁ the attractor radius and r₂ one kilometre
outside it. -/
theorem potential_single_attractor_max_witness :
    |com_lz_attractor_radius 1 - com_lz_attractor_radius 1|
        < |com_lz_attractor_radius 1 + 1 - com_lz_attractor_radius 1|
    ∧ (resonance_potential (com_lz_attractor_radius 1) [1] = 1
      ∧ resonance_potential (com_lz_attractor_radius 1 + 1) [1]
          < resonance_potential (com_lz_attractor_radius 1) [1]
      ∧ resonance_potential (com_lz_attractor_radius 1) [1] ≤ 1) := by
  have h : |com_lz_attractor_radius 1 - com_lz_attractor_radius 1|
      < |com_lz_attractor_radius 1 + 1 - com_lz_attractor_radius 1| := by
    rw [sub_self, abs_zero, add_sub_cancel_left, abs_one]
    norm_num
  exact ⟨h, potential_single_attractor_max 1 _ _ h⟩

/-- C5: the potential over a single attractor is symmetric about the attractor
radius, and in general the potential depends on each attractor radius only
through the absolute difference with the evaluation radius. -/
theorem potential_symmetric (n : ℤ) (d : ℝ) (r r' : ℝ) (n_vals : List ℤ)
    (h : ∀ m ∈ n_vals,
        |r - com_lz_attractor_radius m| = |r' - com_lz_attractor_radius m|) :
    resonance_potential (com_lz_attractor_radius n + d) [n]
      = resonance_potential (com_lz_attractor_radius n - d) [n]
    ∧ resonance_potential r n_vals = resonance_potential r' n_vals := by
  constructor
  · rw [resonance_potential_single, resonance_potential_single,
      add_sub_cancel_left, sub_sub_cancel_left, abs_neg]
  · rw [resonance_potential_eq_map, resonance_potential_eq_map]
    congr 1
    refine List.map_congr_left ?_
    intro m hm
    rw [h m hm]

/-- Witness for C5 at n = 1, d = 2, and the attractor list [2] evaluated at
the two points three kilometres either side of attractor 2. -/
theorem potential_symmetric_witness :
    (∀ m ∈ ([2] : List ℤ),
        |com_lz_attractor_radius 2 + 3 - com_lz_attractor_radius m|
          = |com_lz_attractor_radius 2 - 3 - com_lz_attractor_radius m|)
    ∧ (resonance_potential (com_lz_attractor_radius 1 + 2) [1]
        = resonance_potential (com_lz_attractor_radius 1 - 2) [1]
      ∧ resonance_potential (com_lz_attractor_radius 2 + 3) [2]
        = resonance_potential (com_lz_attractor_radius 2 - 3) [2]) := by
  have h : ∀ m ∈ ([2] : List ℤ),
      |com_lz_attractor_radius 2 + 3 - com_lz_attractor_radius m|
        = |com_lz_attractor_radius 2 - 3 - com_lz_attractor_radius m| := by
    intro m hm
    simp only [List.mem_singleton] at hm
    subst hm
    rw [add_sub_cancel_left, sub_sub_cancel_left, abs_neg]
  exact ⟨h, potential_symmetric 1 2 _ _ [2] h⟩

/-- C6: the octave factor is periodic in n with period 9, so the radius at
n + 9 is exactly LZ^9 times the radius at n. -/
theorem radius_period_nine (n : ℤ) :
    octave_factor (n + 9) = octave_factor n
    ∧ com_lz_attractor_radius (n + 9) = LZ ^ (9:ℤ) * com_lz_attractor_radius n := by
  have hoct : octave_factor (n + 9) = octave_factor n := by
    unfold octave_factor
    have h : (n + 9 - 1) % 9 = (n - 1) % 9 := by omega
    rw [h]
  refine ⟨hoct, ?_⟩
  have hLZ : LZ ≠ 0 := by unfold LZ; norm_num
  show R_EARTH * LZ ^ (n + 9)
        * (1 + 0.1 * Real.sin (octave_factor (n + 9) * 2 * Real.pi))
      = LZ ^ (9:ℤ)
        * (R_EARTH * LZ ^ n * (1 + 0.1 * Real.sin (octave_factor n * 2 * Real.pi)))
  rw [hoct, zpow_add₀ hLZ]
  ring

/-- C8: every denominator 1 + 0.01 * abs(r - r_a)^2 appearing in
resonance_potential is at least 1, and in particular never zero, so the
function has no division-by-zero failure mode. -/
theorem potential_denominator_ge_one (r : ℝ) (n : ℤ) :
    1 ≤ 1 + 0.01 * |r - com_lz_attractor_radius n| ^ 2
    ∧ 1 + 0.01 * |r - com_lz_attractor_radius n| ^ 2 ≠ 0 := by
  have h0 : (0:ℝ) ≤ 0.01 * |r - com_lz_attractor_radius n| ^ 2 := by positivity
  exact ⟨by linarith, by positivity⟩

/-- C10: the potential of the empty attractor list is 0, and over a nonempty
list of k attractors it lies in the half-open interval (0, k]. -/
theorem potential_empty_and_bounds (r : ℝ) (n_vals : List ℤ) (h : n_vals ≠ []) :
    resonance_potential r [] = 0
    ∧ 0 < resonance_potential r n_vals
    ∧ resonance_potential r n_vals ≤ n_vals.length := by
  refine ⟨by simp [resonance_potential], ?_,
    resonance_potential_le_length r n_vals⟩
  cases n_vals with
  | nil => exact absurd rfl h
  | cons m l =>
      rw [resonance_potential_cons]
      have h1 : (0:ℝ) < 1 / (1 + 0.01 * |r - com_lz_attractor_radius m| ^ 2) := by
        positivity
      have h2 := resonance_potential_nonneg r l
      linarith

/-- Witness for C10 at r = 0 with the attractor list [1]. -/
theorem potential_empty_and_bounds_witness :
    (([1] : List ℤ) ≠ [])
    ∧ (resonance_potential 0 [] = 0
      ∧ 0 < resonance_potential 0 [1]
      ∧ resonance_potential 0 [1] ≤ (([1] : List ℤ).length : ℝ)) := by
  have h : ([1] : List ℤ) ≠ [] := by simp
  exact ⟨h, potential_empty_and_bounds 0 [1] h⟩

/-- C1 (code bug): at the state [radius(1), radius(1) - 1] with attractor
list [1] and time 0, the acceleration returned by the code differs from the
specified position-only central difference: NumPy broadcasting over the state
vector adds the potential difference evaluated at the velocity component. -/
theorem drift_acceleration_velocity_coupling :
    drift_acceleration
        (com_lz_attractor_radius 1, com_lz_attractor_radius 1 - 1) 0 [1]
      ≠ drift_acceleration_spec
        (com_lz_attractor_radius 1, com_lz_attractor_radius 1 - 1) 0 [1] := by
  intro heq
  have h2 := congrArg Prod.snd heq
  simp only [drift_acceleration, drift_acceleration_spec,
    resonance_potential_single] at h2
  have e1 : com_lz_attractor_radius 1 + 1.0 - com_lz_attractor_radius 1
      = (1:ℝ) := by ring
  have e2 : com_lz_attractor_radius 1 - 1 + 1.0 - com_lz_attractor_radius 1
      = (0:ℝ) := by ring
  have e3 : com_lz_attractor_radius 1 - 1.0 - com_lz_attractor_radius 1
      = (-1:ℝ) := by ring
  have e4 : com_lz_attractor_radius 1 - 1 - 1.0 - com_lz_attractor_radius 1
      = (-2:ℝ) := by ring
  rw [e1, e2, e3, e4] at h2
  norm_num at h2

/-- Shifting the particle index of a per-particle block commutes with
building the block. -/
theorem particle_rows_shift
    (integrate : ((ℝ × ℝ) → ℝ → List ℤ → (ℝ × ℝ)) → (ℝ × ℝ) → List ℝ →
        List ℤ → List (ℝ × ℝ))
    (i : ℕ) (r0 : ℝ) (n_vals : List ℤ) (t : List ℝ) :
    particle_rows integrate (i + 1) r0 n_vals t
      = (particle_rows integrate i r0 n_vals t).map
          (fun row => SimRow.mk (row.particle + 1) row.time row.radius
            row.velocity) := by
  rw [particle_rows_def, particle_rows_def, List.map_map]
  rfl

/-- C9: per-particle trajectories are independent: simulating r0 :: rest
yields the rows of the single-particle simulation of [r0] followed by the
rows of the simulation of rest with every particle index shifted by one; the
attractor list n_vals is passed unchanged to every per-particle integration
(the embedding is a pure function, matching the absence of any mutation of
n_vals in the source). -/
theorem simulate_particles_independent
    (integrate : ((ℝ × ℝ) → ℝ → List ℤ → (ℝ × ℝ)) → (ℝ × ℝ) → List ℝ →
        List ℤ → List (ℝ × ℝ))
    (r0 : ℝ) (rest : List ℝ) (n_vals : List ℤ) (t_span : ℝ) (num_points : ℕ) :
    simulate_debris_drift integrate (r0 :: rest) n_vals t_span num_points
      = simulate_debris_drift integrate [r0] n_vals t_span num_points
        ++ (simulate_debris_drift integrate rest n_vals t_span num_points).map
            (fun row => SimRow.mk (row.particle + 1) row.time row.radius
              row.velocity) := by
  rw [simulate_debris_drift_def, simulate_debris_drift_def,
    simulate_debris_drift_def]
  rw [List.length_cons, List.range_succ_eq_map, List.map_cons,
    List.flatten_cons, List.map_map]
  rw [List.map_flatten, List.map_map]
  congr 1
  · simp [List.range_succ, List.getD_cons_zero]
  · congr 1
    refine List.map_congr_left ?_
    intro i _
    simp only [Function.comp_apply, List.getD_cons_succ]
    exact particle_rows_shift integrate i (rest.getD i 0) n_vals _

/-- Reading a mapped range at an in-range index. -/
theorem getD_map_range {α : Type} (g : ℕ → α) (n j : ℕ) (d : α) (h : j < n) :
    ((List.range n).map g).getD j d = g j := by
  have hl : j < ((List.range n).map g).length := by simpa using h
  rw [List.getD_eq_getElem _ _ hl]
  simp

/-- Length of the linspace grid. -/
theorem linspace_length (a b : ℝ) (num : ℕ) : (linspace a b num).length = num := by
  simp [linspace]

/-- Reading the linspace grid at an in-range index. -/
theorem linspace_getD (a b : ℝ) (num j : ℕ) (h : j < num) :
    (linspace a b num).getD j 0 = a + (b - a) * j / ((num - 1 : ℕ) : ℝ) := by
  unfold linspace
  exact getD_map_range _ _ _ _ h

/-- C3: with an integrator whose first output sample is the initial state
(the odeint contract), simulating the single initial radius radius(2) * 1.2
with attractors [3, 5, 7] over time span 100 with 1000 points returns exactly
one trajectory of exactly 1000 samples: every row carries particle index 0
and the j-th uniform grid time 100 * j / 999, the first sample is
(time 0, position radius(2) * 1.2, velocity 0), the last sample has time 100,
and the sampled times are strictly increasing along the grid. -/
theorem simulate_shape
    (integrate : ((ℝ × ℝ) → ℝ → List ℤ → (ℝ × ℝ)) → (ℝ × ℝ) → List ℝ →
        List ℤ → List (ℝ × ℝ))
    (hinit : ∀ f y0 t args, t ≠ [] → (integrate f y0 t args).getD 0 (0, 0) = y0) :
    (simulate_debris_drift integrate [com_lz_attractor_radius 2 * 1.2]
        [3, 5, 7] 100 1000).length = 1000
    ∧ (∀ j, j < 1000 →
        ((simulate_debris_drift integrate [com_lz_attractor_radius 2 * 1.2]
            [3, 5, 7] 100 1000).getD j (SimRow.mk 0 0 0 0)).particle = 0
        ∧ ((simulate_debris_drift integrate [com_lz_attractor_radius 2 * 1.2]
            [3, 5, 7] 100 1000).getD j (SimRow.mk 0 0 0 0)).time
          = 100 * (j : ℝ) / 999)
    ∧ ((simulate_debris_drift integrate [com_lz_attractor_radius 2 * 1.2]
        [3, 5, 7] 100 1000).getD 0 (SimRow.mk 0 0 0 0)).time = 0
    ∧ ((simulate_debris_drift integrate [com_lz_attractor_radius 2 * 1.2]
        [3, 5, 7] 100 1000).getD 0 (SimRow.mk 0 0 0 0)).radius
      = com_lz_attractor_radius 2 * 1.2
    ∧ ((simulate_debris_drift integrate [com_lz_attractor_radius 2 * 1.2]
        [3, 5, 7] 100 1000).getD 0 (SimRow.mk 0 0 0 0)).velocity = 0
    ∧ ((simulate_debris_drift integrate [com_lz_attractor_radius 2 * 1.2]
        [3, 5, 7] 100 1000).getD 999 (SimRow.mk 0 0 0 0)).time = 100
    ∧ (∀ j k, j < k → k < 1000 →
        ((simulate_debris_drift integrate [com_lz_attractor_radius 2 * 1.2]
            [3, 5, 7] 100 1000).getD j (SimRow.mk 0 0 0 0)).time
          < ((simulate_debris_drift integrate [com_lz_attractor_radius 2 * 1.2]
            [3, 5, 7] 100 1000).getD k (SimRow.mk 0 0 0 0)).time) := by
  have hlen : (linspace 0 100 1000).length = 1000 := linspace_length 0 100 1000
  have hne : linspace 0 100 1000 ≠ [] := by
    intro hwrong
    rw [hwrong] at hlen
    simp at hlen
  have hsol0 : (integrate drift_acceleration (com_lz_attractor_radius 2 * 1.2, 0)
      (linspace 0 100 1000) [3, 5, 7]).getD 0 (0, 0)
      = (com_lz_attractor_radius 2 * 1.2, 0) :=
    hinit _ _ _ _ hne
  have hdf : simulate_debris_drift integrate [com_lz_attractor_radius 2 * 1.2]
      [3, 5, 7] 100 1000
      = (List.range 1000).map (fun j =>
          SimRow.mk 0 ((linspace 0 100 1000).getD j 0)
            ((integrate drift_acceleration (com_lz_attractor_radius 2 * 1.2, 0)
              (linspace 0 100 1000) [3, 5, 7]).getD j (0, 0)).1
            ((integrate drift_acceleration (com_lz_attractor_radius 2 * 1.2, 0)
              (linspace 0 100 1000) [3, 5, 7]).getD j (0, 0)).2) := by
    rw [simulate_debris_drift_def]
    rw [show ([com_lz_attractor_radius 2 * 1.2] : List ℝ).length = 1 from rfl,
      List.range_succ, List.range_zero, List.nil_append, List.map_cons,
      List.map_nil, List.flatten_cons, List.flatten_nil, List.append_nil,
      List.getD_cons_zero, particle_rows_def, hlen]
  have htime : ∀ j, j < 1000 → (linspace 0 100 1000).getD j 0 = 100 * (j : ℝ) / 999 := by
    intro j hj
    rw [linspace_getD 0 100 1000 j hj]
    norm_num
  rw [hdf]
  refine ⟨by rw [List.length_map, List.length_range], ?_, ?_, ?_, ?_, ?_, ?_⟩
  · intro j hj
    rw [getD_map_range _ _ _ _ hj]
    dsimp only
    exact ⟨rfl, htime j hj⟩
  · rw [getD_map_range _ _ _ _ (by norm_num)]
    dsimp only
    rw [htime 0 (by norm_num)]
    norm_num
  · rw [getD_map_range _ _ _ _ (by norm_num)]
    dsimp only
    rw [hsol0]
  · rw [getD_map_range _ _ _ _ (by norm_num)]
    dsimp only
    rw [hsol0]
  · rw [getD_map_range _ _ _ _ (by norm_num)]
    dsimp only
    rw [htime 999 (by norm_num)]
    norm_num
  · intro j k hjk hk
    rw [getD_map_range _ _ _ _ (lt_trans hjk hk), getD_map_range _ _ _ _ hk]
    dsimp only
    rw [htime j (lt_trans hjk hk), htime k hk]
    have hjk2 : (j : ℝ) < (k : ℝ) := by exact_mod_cast hjk
    have h9 : (0:ℝ) < 999 := by norm_num
    rw [div_lt_div_iff₀ h9 h9]
    linarith

/-- Witness for C3: the integrator contract holds for the integrator that
returns the initial state at every time point, and the simulation shape
theorem applies to it. -/
theorem simulate_shape_witness :
    (∀ (f : (ℝ × ℝ) → ℝ → List ℤ → (ℝ × ℝ)) (y0 : ℝ × ℝ) (t : List ℝ)
        (args : List ℤ), t ≠ [] →
        ((fun (_ : (ℝ × ℝ) → ℝ → List ℤ → (ℝ × ℝ)) (y0 : ℝ × ℝ)
            (ts : List ℝ) (_ : List ℤ) => ts.map (fun _ => y0))
          f y0 t args).getD 0 (0, 0) = y0)
    ∧ (simulate_debris_drift
        (fun (_ : (ℝ × ℝ) → ℝ → List ℤ → (ℝ × ℝ)) (y0 : ℝ × ℝ)
            (ts : List ℝ) (_ : List ℤ) => ts.map (fun _ => y0))
        [com_lz_attractor_radius 2 * 1.2] [3, 5, 7] 100 1000).length = 1000
    ∧ ((simulate_debris_drift
        (fun (_ : (ℝ × ℝ) → ℝ → List ℤ → (ℝ × ℝ)) (y0 : ℝ × ℝ)
            (ts : List ℝ) (_ : List ℤ) => ts.map (fun _ => y0))
        [com_lz_attractor_radius 2 * 1.2] [3, 5, 7] 100 1000).getD 0
          (SimRow.mk 0 0 0 0)).time = 0
    ∧ ((simulate_debris_drift
        (fun (_ : (ℝ × ℝ) → ℝ → List ℤ → (ℝ × ℝ)) (y0 : ℝ × ℝ)
            (ts : List ℝ) (_ : List ℤ) => ts.map (fun _ => y0))
        [com_lz_attractor_radius 2 * 1.2] [3, 5, 7] 100 1000).getD 0
          (SimRow.mk 0 0 0 0)).radius = com_lz_attractor_radius 2 * 1.2
    ∧ ((simulate_debris_drift
        (fun (_ : (ℝ × ℝ) → ℝ → List ℤ → (ℝ × ℝ)) (y0 : ℝ × ℝ)
            (ts : List ℝ) (_ : List ℤ) => ts.map (fun _ => y0))
        [com_lz_attractor_radius 2 * 1.2] [3, 5, 7] 100 1000).getD 0
          (SimRow.mk 0 0 0 0)).velocity = 0
    ∧ ((simulate_debris_drift
        (fun (_ : (ℝ × ℝ) → ℝ → List ℤ → (ℝ × ℝ)) (y0 : ℝ × ℝ)
            (ts : List ℝ) (_ : List ℤ) => ts.map (fun _ => y0))
        [com_lz_attractor_radius 2 * 1.2] [3, 5, 7] 100 1000).getD 999
          (SimRow.mk 0 0 0 0)).time = 100 := by
  have hinit : ∀ (f : (ℝ × ℝ) → ℝ → List ℤ → (ℝ × ℝ)) (y0 : ℝ × ℝ)
      (t : List ℝ) (args : List ℤ), t ≠ [] →
      ((fun (_ : (ℝ × ℝ) → ℝ → List ℤ → (ℝ × ℝ)) (y0 : ℝ × ℝ)
          (ts : List ℝ) (_ : List ℤ) => ts.map (fun _ => y0))
        f y0 t args).getD 0 (0, 0) = y0 := by
    intro f y0 t args ht
    cases t with
    | nil => exact absurd rfl ht
    | cons a l => simp
  have h := simulate_shape _ hinit
  exact ⟨hinit, h.1, h.2.2.1, h.2.2.2.1, h.2.2.2.2.1, h.2.2.2.2.2.1⟩

/-- Interval product bound for nonnegative intervals. -/
theorem mul_mem_interval {a b al au bl bu : ℝ} (ha1 : al ≤ a) (ha2 : a ≤ au)
    (hb1 : bl ≤ b) (hb2 : b ≤ bu) (hal : 0 ≤ al) (hbl : 0 ≤ bl) :
    al * bl ≤ a * b ∧ a * b ≤ au * bu :=
  ⟨mul_le_mul ha1 hb1 hbl (le_trans hal ha1),
   mul_le_mul ha2 hb2 (le_trans hbl hb1) (le_trans (le_trans hal ha1) ha2)⟩

/-- Double angle formula for cosine in terms of the sine. -/
theorem cos_double_as_sin (x : ℝ) :
    Real.cos (2 * x) = 1 - 2 * Real.sin x ^ 2 := by
  have h := Real.sin_sq_add_cos_sq x
  rw [Real.cos_two_mul]
  linarith

/-- Numeric bounds for sin(pi/36) from the cubic Taylor bound. -/
theorem sin_pi_div_36_bounds :
    0.0871526573 ≤ Real.sin (Real.pi / 36)
    ∧ Real.sin (Real.pi / 36) ≤ 0.0871587387 := by
  have hπl := Real.pi_gt_d6
  have hπu := Real.pi_lt_d6
  have hxl : (0.08726644 : ℝ) ≤ Real.pi / 36 := by linarith
  have hxu : Real.pi / 36 ≤ (0.08726648 : ℝ) := by linarith
  have hx0 : (0 : ℝ) ≤ Real.pi / 36 := by linarith
  have hxabs : |Real.pi / 36| ≤ 1 := by
    rw [abs_of_nonneg hx0]
    linarith
  have hb := Real.sin_bound hxabs
  rw [abs_of_nonneg hx0] at hb
  rcases abs_le.mp hb with ⟨hb1, hb2⟩
  have h3u : (Real.pi / 36) ^ 3 ≤ 0.000664572515 :=
    le_trans (pow_le_pow_left hx0 hxu 3) (by norm_num)
  have h3l : (0.000664571600 : ℝ) ≤ (Real.pi / 36) ^ 3 :=
    le_trans (by norm_num) (pow_le_pow_left (by norm_num) hxl 3)
  have h4u : (Real.pi / 36) ^ 4 ≤ 0.000057994905 :=
    le_trans (pow_le_pow_left hx0 hxu 4) (by norm_num)
  have h40 : (0 : ℝ) ≤ (Real.pi / 36) ^ 4 := by positivity
  constructor <;> linarith

/-- Numeric bounds for cos(pi/36) from the quadratic Taylor bound. -/
theorem cos_pi_div_36_bounds :
    0.9961892601 ≤ Real.cos (Real.pi / 36)
    ∧ Real.cos (Real.pi / 36) ≤ 0.9961953048 := by
  have hπl := Real.pi_gt_d6
  have hπu := Real.pi_lt_d6
  have hxl : (0.08726644 : ℝ) ≤ Real.pi / 36 := by linarith
  have hxu : Real.pi / 36 ≤ (0.08726648 : ℝ) := by linarith
  have hx0 : (0 : ℝ) ≤ Real.pi / 36 := by linarith
  have hxabs : |Real.pi / 36| ≤ 1 := by
    rw [abs_of_nonneg hx0]
    linarith
  have hb := Real.cos_bound hxabs
  rw [abs_of_nonneg hx0] at hb
  rcases abs_le.mp hb with ⟨hb1, hb2⟩
  have h2u : (Real.pi / 36) ^ 2 ≤ 0.007615438532 :=
    le_trans (pow_le_pow_left hx0 hxu 2) (by norm_num)
  have h2l : (0.007615431550 : ℝ) ≤ (Real.pi / 36) ^ 2 :=
    le_trans (by norm_num) (pow_le_pow_left (by norm_num) hxl 2)
  have h4u : (Real.pi / 36) ^ 4 ≤ 0.000057994905 :=
    le_trans (pow_le_pow_left hx0 hxu 4) (by norm_num)
  have h40 : (0 : ℝ) ≤ (Real.pi / 36) ^ 4 := by positivity
  constructor <;> linarith

/-- Numeric bounds for sin(pi/18) via the double angle formula. -/
theorem sin_pi_div_18_bounds :
    0.1736410823 ≤ Real.sin (Real.pi / 18)
    ∧ Real.sin (Real.pi / 18) ≤ 0.1736542526 := by
  have hs := sin_pi_div_36_bounds
  have hc := cos_pi_div_36_bounds
  have e : Real.pi / 18 = 2 * (Real.pi / 36) := by ring
  rw [e, Real.sin_two_mul]
  have h := mul_mem_interval hs.1 hs.2 hc.1 hc.2 (by norm_num) (by norm_num)
  constructor <;> nlinarith [h.1, h.2]

/-- Numeric bounds for cos(pi/18) via the double angle formula. -/
theorem cos_pi_div_18_bounds :
    0.9848067085 ≤ Real.cos (Real.pi / 18)
    ∧ Real.cos (Real.pi / 18) ≤ 0.9848088287 := by
  have hs := sin_pi_div_36_bounds
  have e : Real.pi / 18 = 2 * (Real.pi / 36) := by ring
  rw [e, cos_double_as_sin]
  have h2u : Real.sin (Real.pi / 36) ^ 2 ≤ 0.0871587387 ^ 2 :=
    pow_le_pow_left (le_trans (by norm_num) hs.1) hs.2 2
  have h2l : (0.0871526573 : ℝ) ^ 2 ≤ Real.sin (Real.pi / 36) ^ 2 :=
    pow_le_pow_left (by norm_num) hs.1 2
  constructor <;> nlinarith [h2u, h2l]

/-- Numeric bounds for sin(pi/9) via the double angle formula. -/
theorem sin_pi_div_9_bounds :
    0.3420058054 ≤ Real.sin (Real.pi / 9)
    ∧ Real.sin (Real.pi / 9) ≤ 0.3420324823 := by
  have hs := sin_pi_div_18_bounds
  have hc := cos_pi_div_18_bounds
  have e : Real.pi / 9 = 2 * (Real.pi / 18) := by ring
  rw [e, Real.sin_two_mul]
  have h := mul_mem_interval hs.1 hs.2 hc.1 hc.2 (by norm_num) (by norm_num)
  constructor <;> nlinarith [h.1, h.2]

/-- Numeric bounds for cos(pi/9) via the double angle formula. -/
theorem cos_pi_div_9_bounds :
    0.9396884011 ≤ Real.cos (Real.pi / 9)
    ∧ Real.cos (Real.pi / 9) ≤ 0.9396975491 := by
  have hs := sin_pi_div_18_bounds
  have e : Real.pi / 9 = 2 * (Real.pi / 18) := by ring
  rw [e, cos_double_as_sin]
  have h2u : Real.sin (Real.pi / 18) ^ 2 ≤ 0.1736542526 ^ 2 :=
    pow_le_pow_left (le_trans (by norm_num) hs.1) hs.2 2
  have h2l : (0.1736410823 : ℝ) ^ 2 ≤ Real.sin (Real.pi / 18) ^ 2 :=
    pow_le_pow_left (by norm_num) hs.1 2
  constructor <;> nlinarith [h2u, h2l]

/-- Numeric bounds for sin(2 pi/9), the octave argument of radius(1). -/
theorem sin_two_pi_div_9_bounds :
    0.6427577768 ≤ Real.sin (2 * (Real.pi / 9))
    ∧ Real.sin (2 * (Real.pi / 9)) ≤ 0.6428141707 := by
  have hs := sin_pi_div_9_bounds
  have hc := cos_pi_div_9_bounds
  rw [Real.sin_two_mul]
  have h := mul_mem_interval hs.1 hs.2 hc.1 hc.2 (by norm_num) (by norm_num)
  constructor <;> nlinarith [h.1, h.2]

/-- Two-sided numeric bounds for com_lz_attractor_radius 1. -/
theorem radius_one_bounds :
    8373.802 ≤ com_lz_attractor_radius 1
    ∧ com_lz_attractor_radius 1 ≤ 8373.847 := by
  have hS := sin_two_pi_div_9_bounds
  have hoct1 : octave_factor 1 = 1 / 9 := by
    unfold octave_factor
    norm_num
  have e0 : com_lz_attractor_radius 1
      = R_EARTH * LZ ^ (1:ℤ)
        * (1 + 0.1 * Real.sin (octave_factor 1 * 2 * Real.pi)) := rfl
  rw [e0, hoct1]
  have e1 : (1:ℝ) / 9 * 2 * Real.pi = 2 * (Real.pi / 9) := by ring
  rw [e1, zpow_one]
  unfold R_EARTH LZ
  constructor <;> nlinarith [hS.1, hS.2]

/-- C7 counterexample: com_lz_attractor_radius 1 is not within 0.1 of 8373.1
(its value is about 8373.83, so the spec's end-to-end number is wrong). -/
theorem radius_one_far_from_8373_1 :
    ¬ |com_lz_attractor_radius 1 - 8373.1| ≤ 0.1 := by
  have h := radius_one_bounds
  intro habs
  rcases abs_le.mp habs with ⟨h1, h2⟩
  linarith [h.1]

/-- C7 amended: with LZ = 1.23498288 and R0 = 6371, the base R_EARTH * LZ
is within 0.1 of 7868.1 and com_lz_attractor_radius 1 is within 0.1 of
8373.8, via octave = 1/9 and sin(2 pi/9) between 0.64275 and 0.64282. -/
theorem radius_one_approx :
    |R_EARTH * LZ - 7868.1| ≤ 0.1
    ∧ |com_lz_attractor_radius 1 - 8373.8| ≤ 0.1 := by
  have h := radius_one_bounds
  constructor
  · rw [abs_le]
    unfold R_EARTH LZ
    constructor <;> norm_num
  · rw [abs_le]
    exact ⟨by linarith [h.1], by linarith [h.2]⟩

end SATDebris
